import Mathlib

/-!
# Verification of the `ParkingFeeCalculator` contract

Shallow embedding of the Solidity contract `ParkingFeeCalculator`
(privacy-preserving parking fee calculator over FHE-encrypted 64-bit
integers).  Ciphertexts of type `euint64` are modelled by their plaintext
value, a `Nat` below `2 ^ 64`; the FHE primitives `FHE.add`, `FHE.sub`,
`FHE.mul` are 64-bit modular arithmetic, `FHE.gt` is a strict plaintext
comparison producing a boolean, and `FHE.select` is the branch-free
conditional.  The contract's storage is an explicit record, and each
external entry point is a function returning `Except` (a failed `require`
reverts, leaving the state unchanged).

Ciphertext handles (`bytes32` values produced by `FHE.toBytes32`) are
modelled by a natural-number identifier: the default (uninitialised)
ciphertext has handle `0` (the all-zero `bytes32`), and each ciphertext
produced by a `quote` computation receives a fresh identifier drawn from
a counter, reflecting that the FHE co-processor assigns a fresh handle to
every newly computed ciphertext.
-/

namespace Parking

/-- The modulus `2 ^ 64` of `euint64` arithmetic. -/
def W : Nat := 2 ^ 64

/-- The contract constant `uint64 public constant BLOCK_MINUTES = 30`. -/
def BLOCK_MINUTES : Nat := 30

/-- Plaintext semantics of `FHE.add` on `euint64`: 64-bit wrapping add. -/
def fheAdd (a b : Nat) : Nat := (a + b) % W

/-- Plaintext semantics of `FHE.sub` on `euint64`: 64-bit wrapping subtract. -/
def fheSub (a b : Nat) : Nat := (a + (W - b % W)) % W

/-- Plaintext semantics of `FHE.mul` on `euint64`: 64-bit wrapping multiply. -/
def fheMul (a b : Nat) : Nat := (a * b) % W

/-- Plaintext semantics of `FHE.gt`: strict greater-than, as a boolean. -/
def fheGt (a b : Nat) : Bool := b < a

/-- Plaintext semantics of `FHE.select cond ifTrue ifFalse`. -/
def fheSelect (c : Bool) (t f : Nat) : Nat := if c then t else f

/-- Accumulator loop of `_msbPos`:
`while (x > 1) { x >>= 1; ++p; }  return p;`. -/
def msbAux (x p : Nat) : Nat :=
  if x > 1 then msbAux (x / 2) (p + 1) else p
termination_by x
decreasing_by exact Nat.div_lt_self (by omega) (by omega)

/-- Position (0-based) of the most significant set bit of `x` for `x ≥ 1`:
the contract helper `_msbPos(uint16 x)`. -/
def _msbPos (x : Nat) : Nat := msbAux x 0

/-- One iteration of the binary subtraction ladder in `quote`, at chunk
exponent `k`:
`chunk = 30 * 2^k`; `ge = FHE.gt(rem, chunk-1)`;
`rem = FHE.select(ge, FHE.sub(rem, chunk), rem)`;
`blocks = FHE.select(ge, FHE.add(blocks, 1 << k), blocks)`. -/
def ladderStep (rem blocks k : Nat) : Nat × Nat :=
  let chunk := BLOCK_MINUTES * 2 ^ k
  let ge := fheGt rem (chunk - 1)
  let remMinus := fheSub rem chunk
  let rem' := fheSelect ge remMinus rem
  let addBy := 2 ^ k
  let blocksPlus := fheAdd blocks addBy
  let blocks' := fheSelect ge blocksPlus blocks
  (rem', blocks')

/-- The `for (uint8 ki = kMax + 1; ki > 0;)` loop of `quote`: runs
`ladderStep` for `k = kMax, kMax-1, …, 0` on the state `(rem, blocks)`. -/
def ladderDown : Nat → Nat → Nat → Nat × Nat
  | rem, blocks, 0 => ladderStep rem blocks 0
  | rem, blocks, k + 1 =>
    let s := ladderStep rem blocks (k + 1)
    ladderDown s.1 s.2 k

/-- The list of `(rem, blocks)` states after each iteration of the ladder
loop, most-significant chunk first; its length is the iteration count. -/
def ladderTrace : Nat → Nat → Nat → List (Nat × Nat)
  | rem, blocks, 0 => [ladderStep rem blocks 0]
  | rem, blocks, k + 1 =>
    let s := ladderStep rem blocks (k + 1)
    s :: ladderTrace s.1 s.2 k

/-- Block count computed by `quote` before the cap step: the subtraction
ladder from `kMax = _msbPos maxBlocks` followed by the ceiling adjustment
`blocks = FHE.select(FHE.gt(rem, 0), FHE.add(blocks, 1), blocks)`. -/
def quotePreCapBlocks (maxBlocks m : Nat) : Nat :=
  let kMax := _msbPos maxBlocks
  let s := ladderDown m 0 kMax
  let hasRem := fheGt s.1 0
  fheSelect hasRem (fheAdd s.2 1) s.2

/-- Block count computed by `quote` after the cap step:
`blocks = FHE.select(FHE.gt(blocks, maxBlocks), maxBlocks, blocks)`. -/
def quoteBlocks (maxBlocks m : Nat) : Nat :=
  let b := quotePreCapBlocks maxBlocks m
  fheSelect (fheGt b maxBlocks) maxBlocks b

/-- Plaintext value of the encrypted fee computed by `quote`:
`fee = FHE.mul(blocks, FHE.asEuint64(pricePerBlock))`. -/
def quoteFee (maxBlocks pricePerBlock m : Nat) : Nat :=
  fheMul (quoteBlocks maxBlocks m) pricePerBlock

/-- Mathematical ceiling division `⌈a / b⌉` on naturals (for the spec side
of the statements; the contract itself never divides). -/
def ceilDiv (a b : Nat) : Nat := (a + b - 1) / b

/-- A ciphertext as stored on chain: its plaintext value together with the
handle identifier of its `bytes32` handle. -/
structure Ct where
  val : Nat
  hid : Nat
deriving DecidableEq

/-- The default (uninitialised) `euint64` of a Solidity mapping slot:
plaintext `0`, all-zero handle. -/
def defaultCt : Ct := ⟨0, 0⟩

/-- Errors of the contract, one per distinct `require` reason:
`"Not owner"` is the authorization failure, `"price=0"`, `"maxBlocks=0"`
and `"Zero owner"` are policy-validation failures, `"Empty proof"` is the
proof-validation failure. -/
inductive CError
  | NotAuthorizedError
  | InvalidPolicyError
  | InvalidProofError
deriving DecidableEq

/-- Contract storage (plus the handle-freshness counter and the event
log of `Quoted(user, feeHandle)` events).  Addresses are `Nat`, with `0`
the zero address. -/
structure CState where
  owner : Nat
  pricePerBlock : Nat
  maxBlocks : Nat
  lastFee : Nat → Ct
  allowedThis : Nat → Bool
  allowedUser : Nat → Nat → Bool
  nextHid : Nat
  events : List (Nat × Nat)

/-- Handle of a ciphertext, as returned by `FHE.toBytes32`. -/
def toBytes32 (c : Ct) : Nat := c.hid

/-- The constructor:
`require(pricePerBlock_ > 0); require(maxBlocks_ > 0);` then initialise
owner and pricing.  All mapping slots start at the default ciphertext. -/
def construct (sender pricePerBlock_ maxBlocks_ : Nat) : Except CError CState :=
  if ¬ pricePerBlock_ > 0 then .error .InvalidPolicyError
  else if ¬ maxBlocks_ > 0 then .error .InvalidPolicyError
  else .ok
    { owner := sender
      pricePerBlock := pricePerBlock_
      maxBlocks := maxBlocks_
      lastFee := fun _ => defaultCt
      allowedThis := fun _ => false
      allowedUser := fun _ _ => false
      nextHid := 1
      events := [] }

/-- Setter `setPricePerBlock(uint64 newPrice)`: `onlyOwner`, then
`require(newPrice > 0)`. -/
def setPricePerBlock (sender newPrice : Nat) (s : CState) : Except CError CState :=
  if ¬ sender = s.owner then .error .NotAuthorizedError
  else if ¬ newPrice > 0 then .error .InvalidPolicyError
  else .ok { s with pricePerBlock := newPrice }

/-- Setter `setMaxBlocks(uint16 newMax)`: `onlyOwner`, then
`require(newMax > 0)`. -/
def setMaxBlocks (sender newMax : Nat) (s : CState) : Except CError CState :=
  if ¬ sender = s.owner then .error .NotAuthorizedError
  else if ¬ newMax > 0 then .error .InvalidPolicyError
  else .ok { s with maxBlocks := newMax }

/-- Ownership transfer `transferOwnership(address n)`: `onlyOwner`, then
`require(n != address(0))`. -/
def transferOwnership (sender n : Nat) (s : CState) : Except CError CState :=
  if ¬ sender = s.owner then .error .NotAuthorizedError
  else if ¬ n > 0 then .error .InvalidPolicyError
  else .ok { s with owner := n }

/-- Accessor `getMyFeeHandle()`: returns
`FHE.toBytes32(_lastFee[msg.sender])`. -/
def getMyFeeHandle (sender : Nat) (s : CState) : Nat :=
  toBytes32 (s.lastFee sender)

/-- Main entry point `quote(externalEuint64 minutesExt, bytes calldata proof)`:
`require(proof.length > 0)`, import the encrypted minutes `m`, run the
ladder / ceiling / cap / price pipeline, store the fee in
`_lastFee[msg.sender]`, grant decryption to the contract
(`FHE.allowThis`) and to the caller (`FHE.allow`), emit
`Quoted(msg.sender, feeHandle)` and return the handle.  The freshly
computed fee ciphertext receives the next free handle identifier. -/
def quote (sender m : Nat) (proof : List Nat) (s : CState) :
    Except CError (CState × Nat) :=
  if ¬ proof.length > 0 then .error .InvalidProofError
  else
    let feeVal := quoteFee s.maxBlocks s.pricePerBlock m
    let fee : Ct := ⟨feeVal, s.nextHid⟩
    let hdl := toBytes32 fee
    .ok
      ({ s with
          lastFee := fun a => if a = sender then fee else s.lastFee a
          allowedThis := fun h => if h = fee.hid then true else s.allowedThis h
          allowedUser := fun h a =>
            if h = fee.hid ∧ a = sender then true else s.allowedUser h a
          nextHid := s.nextHid + 1
          events := (sender, hdl) :: s.events }, hdl)

/-- An external transaction against the contract. -/
inductive Op
  | setPrice (sender p : Nat)
  | setMax (sender mb : Nat)
  | transfer (sender n : Nat)
  | quoteOp (sender m : Nat) (proof : List Nat)

/-- Ledger semantics of one transaction: a reverted call leaves the state
unchanged. -/
def stepOp (s : CState) (op : Op) : CState :=
  match op with
  | .setPrice a p => match setPricePerBlock a p s with
    | .ok s' => s'
    | .error _ => s
  | .setMax a mb => match setMaxBlocks a mb s with
    | .ok s' => s'
    | .error _ => s
  | .transfer a n => match transferOwnership a n s with
    | .ok s' => s'
    | .error _ => s
  | .quoteOp a m pf => match quote a m pf s with
    | .ok (s', _) => s'
    | .error _ => s

/-- Serialized execution of a list of transactions. -/
def run (s : CState) (ops : List Op) : CState := ops.foldl stepOp s

/-- Handle-freshness well-formedness: every stored handle identifier is
below the counter.  Holds in every reachable state. -/
def WfHandles (s : CState) : Prop :=
  ∀ a, (s.lastFee a).hid < s.nextHid

/- ### Basic lemmas -/

theorem msbAux_eq_log (x p : Nat) : msbAux x p = p + Nat.log 2 x := by
  induction x using Nat.strong_induction_on generalizing p with
  | _ x ih =>
    rw [msbAux]
    by_cases h : x > 1
    · rw [if_pos h, Nat.log_of_one_lt_of_le (by omega) (by omega),
        ih (x / 2) (Nat.div_lt_self (by omega) (by omega))]
      omega
    · rw [if_neg h, Nat.log_of_lt (by omega)]
      omega

theorem _msbPos_eq_log (x : Nat) : _msbPos x = Nat.log 2 x := by
  rw [_msbPos, msbAux_eq_log]
  omega

theorem W_eq : W = 18446744073709551616 := by norm_num [W]

theorem fheSelect_gt (a b t f : Nat) :
    fheSelect (fheGt a b) t f = if b < a then t else f := by
  simp [fheSelect, fheGt]

theorem ladderStep_ge (rem blocks k : Nat) (h : 30 * 2 ^ k ≤ rem) (hr : rem < W)
    (hb : blocks + 2 ^ k < W) :
    ladderStep rem blocks k = (rem - 30 * 2 ^ k, blocks + 2 ^ k) := by
  have h1 : (1 : Nat) ≤ 2 ^ k := Nat.one_le_two_pow
  rw [W_eq] at hr hb
  simp only [ladderStep, BLOCK_MINUTES, fheSelect_gt, fheSub, fheAdd, W_eq,
    Prod.mk.injEq]
  rw [if_pos (by omega), if_pos (by omega)]
  constructor <;> omega

theorem ladderStep_lt (rem blocks k : Nat) (h : rem < 30 * 2 ^ k) :
    ladderStep rem blocks k = (rem, blocks) := by
  have h1 : (1 : Nat) ≤ 2 ^ k := Nat.one_le_two_pow
  simp only [ladderStep, BLOCK_MINUTES, fheSelect_gt]
  rw [if_neg (by omega), if_neg (by omega)]

/-- Exact regime of the subtraction ladder: when the remaining minutes fit
in `k + 1` quotient bits, the ladder computes quotient and remainder of
division by 30 (the quotient accumulating onto `blocks`). -/
theorem ladderDown_exact (k : Nat) : ∀ rem blocks : Nat,
    rem < 30 * 2 ^ (k + 1) → rem < W → blocks + 2 ^ (k + 1) ≤ W →
    ladderDown rem blocks k = (rem % 30, blocks + rem / 30) := by
  induction k with
  | zero =>
    intro rem blocks h hr hb
    norm_num at h hb
    rw [ladderDown]
    by_cases hc : 30 * 2 ^ 0 ≤ rem
    · rw [ladderStep_ge rem blocks 0 hc hr (by rw [W_eq] at hb ⊢; norm_num at hc ⊢; omega)]
      norm_num at hc ⊢
      constructor <;> omega
    · rw [ladderStep_lt rem blocks 0 (by omega), Prod.mk.injEq]
      norm_num at hc
      constructor <;> omega
  | succ k ih =>
    intro rem blocks h hr hb
    rw [pow_succ 2 (k + 1)] at h hb
    have h1 : (1 : Nat) ≤ 2 ^ (k + 1) := Nat.one_le_two_pow
    rw [ladderDown]
    by_cases hc : 30 * 2 ^ (k + 1) ≤ rem
    · rw [ladderStep_ge rem blocks (k + 1) hc hr (by rw [W_eq] at hb ⊢; omega)]
      rw [ih (rem - 30 * 2 ^ (k + 1)) (blocks + 2 ^ (k + 1)) (by omega) (by omega)
        (by omega), Prod.mk.injEq]
      constructor <;> omega
    · rw [ladderStep_lt rem blocks (k + 1) (by omega)]
      rw [ih rem blocks (by omega) hr (by omega), Prod.mk.injEq]
      constructor <;> omega

/-- Saturated regime of the subtraction ladder: when the remaining minutes
reach the largest representable quotient, every iteration fires and the
ladder accumulates the all-ones quotient `2 ^ (k + 1) - 1`. -/
theorem ladderDown_saturate (k : Nat) : ∀ rem blocks : Nat,
    30 * (2 ^ (k + 1) - 1) ≤ rem → rem < W → blocks + 2 ^ (k + 1) ≤ W →
    ladderDown rem blocks k =
      (rem - 30 * (2 ^ (k + 1) - 1), blocks + (2 ^ (k + 1) - 1)) := by
  induction k with
  | zero =>
    intro rem blocks h hr hb
    norm_num at h hb ⊢
    rw [ladderDown, ladderStep_ge rem blocks 0 (by norm_num; omega) hr
      (by rw [W_eq] at hb ⊢; norm_num; omega)]
    norm_num
  | succ k ih =>
    intro rem blocks h hr hb
    rw [pow_succ 2 (k + 1)] at h hb
    have h1 : (1 : Nat) ≤ 2 ^ (k + 1) := Nat.one_le_two_pow
    rw [ladderDown, ladderStep_ge rem blocks (k + 1) (by omega) hr
      (by rw [W_eq] at hb ⊢; omega)]
    rw [ih (rem - 30 * 2 ^ (k + 1)) (blocks + 2 ^ (k + 1)) (by omega) (by omega)
      (by omega), pow_succ 2 (k + 1), Prod.mk.injEq]
    constructor <;> omega

theorem log2_le_15 {maxB : Nat} (h1 : 1 ≤ maxB) (h16 : maxB < 2 ^ 16) :
    Nat.log 2 maxB ≤ 15 := by
  have hps := Nat.pow_log_le_self 2 (x := maxB) (by omega)
  by_contra hlt
  push_neg at hlt
  have : (2 : Nat) ^ 16 ≤ 2 ^ Nat.log 2 maxB :=
    Nat.pow_le_pow_right (by norm_num) (by omega)
  omega

/-- Characterisation of the pre-cap block count: the ladder followed by
the ceiling adjustment computes `⌈m / 30⌉`, saturating at
`2 ^ (⌊log₂ maxBlocks⌋ + 1)` for inputs beyond the representable range. -/
theorem quotePreCapBlocks_eq (maxB m : Nat) (h1 : 1 ≤ maxB) (h16 : maxB < 2 ^ 16)
    (hm : m < W) :
    quotePreCapBlocks maxB m = min (ceilDiv m 30) (2 ^ (Nat.log 2 maxB + 1)) := by
  have hk : Nat.log 2 maxB ≤ 15 := log2_le_15 h1 h16
  have hKle : (2 : Nat) ^ (Nat.log 2 maxB + 1) ≤ 2 ^ 16 :=
    Nat.pow_le_pow_right (by norm_num) (by omega)
  have hK1 : (1 : Nat) ≤ 2 ^ (Nat.log 2 maxB + 1) := Nat.one_le_two_pow
  have h16' : (2 : Nat) ^ 16 = 65536 := by norm_num
  rw [quotePreCapBlocks, _msbPos_eq_log]
  rw [W_eq] at hm
  by_cases hc : m < 30 * 2 ^ (Nat.log 2 maxB + 1)
  · rw [ladderDown_exact _ m 0 hc (by rw [W_eq]; omega) (by rw [W_eq]; omega)]
    simp only [fheSelect_gt, fheAdd, ceilDiv, W_eq]
    split <;> omega
  · rw [ladderDown_saturate _ m 0 (by omega) (by rw [W_eq]; omega)
      (by rw [W_eq]; omega)]
    simp only [fheSelect_gt, fheAdd, ceilDiv, W_eq]
    rw [if_pos (by omega)]
    omega

/-- Characterisation of the post-cap block count computed by `quote`. -/
theorem quoteBlocks_eq (maxB m : Nat) (h1 : 1 ≤ maxB) (h16 : maxB < 2 ^ 16)
    (hm : m < W) :
    quoteBlocks maxB m =
      min (min (ceilDiv m 30) (2 ^ (Nat.log 2 maxB + 1))) maxB := by
  rw [quoteBlocks, quotePreCapBlocks_eq maxB m h1 h16 hm, fheSelect_gt]
  split <;> omega

theorem ladderTrace_length (k : Nat) : ∀ rem blocks : Nat,
    (ladderTrace rem blocks k).length = k + 1 := by
  induction k with
  | zero => intro rem blocks; rw [ladderTrace]; rfl
  | succ k ih => intro rem blocks; rw [ladderTrace, List.length_cons, ih]

theorem ladderTrace_ne_nil (k rem blocks : Nat) : ladderTrace rem blocks k ≠ [] := by
  cases k <;> rw [ladderTrace] <;> simp

theorem ladderTrace_getLast (k : Nat) : ∀ rem blocks : Nat,
    (ladderTrace rem blocks k).getLast? = some (ladderDown rem blocks k) := by
  induction k with
  | zero => intro rem blocks; rw [ladderTrace, ladderDown]; simp
  | succ k ih =>
    intro rem blocks
    rw [ladderTrace, ladderDown]
    obtain ⟨hd, tl, ht⟩ := List.exists_cons_of_ne_nil
      (ladderTrace_ne_nil k (ladderStep rem blocks (k + 1)).1
        (ladderStep rem blocks (k + 1)).2)
    rw [ht, List.getLast?_cons_cons, ← ht, ih]

/- ### State-machine characterisation lemmas -/

theorem stepOp_setPrice (s : CState) (a p : Nat) :
    stepOp s (.setPrice a p) =
      if a = s.owner ∧ 0 < p then { s with pricePerBlock := p } else s := by
  simp only [stepOp, setPricePerBlock]
  by_cases h1 : a = s.owner <;> by_cases h2 : 0 < p <;> simp [h1, h2]

theorem stepOp_setMax (s : CState) (a mb : Nat) :
    stepOp s (.setMax a mb) =
      if a = s.owner ∧ 0 < mb then { s with maxBlocks := mb } else s := by
  simp only [stepOp, setMaxBlocks]
  by_cases h1 : a = s.owner <;> by_cases h2 : 0 < mb <;> simp [h1, h2]

theorem stepOp_transfer (s : CState) (a n : Nat) :
    stepOp s (.transfer a n) =
      if a = s.owner ∧ 0 < n then { s with owner := n } else s := by
  simp only [stepOp, transferOwnership]
  by_cases h1 : a = s.owner <;> by_cases h2 : 0 < n <;> simp [h1, h2]

theorem stepOp_quote (s : CState) (a m : Nat) (pf : List Nat) :
    stepOp s (.quoteOp a m pf) =
      if 0 < pf.length then
        { s with
            lastFee := fun x =>
              if x = a then ⟨quoteFee s.maxBlocks s.pricePerBlock m, s.nextHid⟩
              else s.lastFee x
            allowedThis := fun h => if h = s.nextHid then true else s.allowedThis h
            allowedUser := fun h x =>
              if h = s.nextHid ∧ x = a then true else s.allowedUser h x
            nextHid := s.nextHid + 1
            events := (a, s.nextHid) :: s.events }
      else s := by
  simp only [stepOp, quote, toBytes32]
  by_cases h : 0 < pf.length <;> simp [h]

theorem stepOp_pos (s : CState) (op : Op) (hp : 0 < s.pricePerBlock)
    (hm : 0 < s.maxBlocks) :
    0 < (stepOp s op).pricePerBlock ∧ 0 < (stepOp s op).maxBlocks := by
  cases op with
  | setPrice a p => rw [stepOp_setPrice]; split <;> simp_all
  | setMax a mb => rw [stepOp_setMax]; split <;> simp_all
  | transfer a n => rw [stepOp_transfer]; split <;> simp_all
  | quoteOp a m pf => rw [stepOp_quote]; split <;> simp_all

theorem run_pos (ops : List Op) : ∀ s : CState, 0 < s.pricePerBlock →
    0 < s.maxBlocks → 0 < (run s ops).pricePerBlock ∧ 0 < (run s ops).maxBlocks := by
  induction ops with
  | nil => intro s hp hm; exact ⟨hp, hm⟩
  | cons op ops ih =>
    intro s hp hm
    rw [run, List.foldl_cons]
    exact ih (stepOp s op) (stepOp_pos s op hp hm).1 (stepOp_pos s op hp hm).2

theorem stepOp_wf (s : CState) (op : Op) (h : WfHandles s) :
    WfHandles (stepOp s op) := by
  cases op with
  | setPrice a p => rw [stepOp_setPrice]; split <;> exact h
  | setMax a mb => rw [stepOp_setMax]; split <;> exact h
  | transfer a n => rw [stepOp_transfer]; split <;> exact h
  | quoteOp a m pf =>
    rw [stepOp_quote]
    split
    · intro x
      simp only
      split
      · exact Nat.lt_succ_self _
      · exact Nat.lt_succ_of_lt (h x)
    · exact h

theorem run_wf (ops : List Op) : ∀ s : CState, WfHandles s →
    WfHandles (run s ops) := by
  induction ops with
  | nil => intro s h; exact h
  | cons op ops ih =>
    intro s h
    rw [run, List.foldl_cons]
    exact ih (stepOp s op) (stepOp_wf s op h)

theorem construct_ok {d p mb : Nat} {s0 : CState}
    (h : construct d p mb = .ok s0) :
    s0.owner = d ∧ s0.pricePerBlock = p ∧ s0.maxBlocks = mb ∧
    (∀ a, s0.lastFee a = defaultCt) ∧ s0.nextHid = 1 ∧ 0 < p ∧ 0 < mb := by
  rw [construct] at h
  by_cases h1 : 0 < p
  · by_cases h2 : 0 < mb
    · simp only [h1, h2, not_true_eq_false, if_false, Except.ok.injEq] at h
      subst h
      exact ⟨rfl, rfl, rfl, fun a => rfl, rfl, h1, h2⟩
    · simp [h1, h2] at h
  · simp [h1] at h

theorem run_lastFee_frame (b : Nat) (ops : List Op) : ∀ s : CState,
    (∀ m pf, Op.quoteOp b m pf ∈ ops → pf = []) →
    (run s ops).lastFee b = s.lastFee b := by
  induction ops with
  | nil => intro s _; rfl
  | cons op ops ih =>
    intro s hb
    rw [run, List.foldl_cons]
    have htail : ∀ m pf, Op.quoteOp b m pf ∈ ops → pf = [] := by
      intro m pf hm
      exact hb m pf (List.mem_cons_of_mem op hm)
    rw [show (List.foldl stepOp (stepOp s op) ops) = run (stepOp s op) ops from rfl,
      ih (stepOp s op) htail]
    cases op with
    | setPrice a p => rw [stepOp_setPrice]; split <;> rfl
    | setMax a mb => rw [stepOp_setMax]; split <;> rfl
    | transfer a n => rw [stepOp_transfer]; split <;> rfl
    | quoteOp a m pf =>
      by_cases hba : b = a
      · have := hb m pf (by rw [hba]; exact List.mem_cons_self _ _)
        subst this
        rw [stepOp_quote]
        simp
      · rw [stepOp_quote]
        split
        · simp only [if_neg hba]
        · rfl

/- ### Demo states for concrete instantiations -/

/-- A deployed state with the spec's demo policy
(`pricePerBlock = 50`, `maxBlocks = 96`), owner `1`. -/
def demoState : CState :=
  { owner := 1
    pricePerBlock := 50
    maxBlocks := 96
    lastFee := fun _ => defaultCt
    allowedThis := fun _ => false
    allowedUser := fun _ _ => false
    nextHid := 1
    events := [] }

/-- A deployed state with `pricePerBlock = 2 ^ 63` and `maxBlocks = 2`
(a policy the constructor accepts). -/
def cexState : CState :=
  { owner := 1
    pricePerBlock := 2 ^ 63
    maxBlocks := 2
    lastFee := fun _ => defaultCt
    allowedThis := fun _ => false
    allowedUser := fun _ _ => false
    nextHid := 1
    events := [] }

/-- A deployed state with `pricePerBlock = 2 ^ 63` and `maxBlocks = 4`. -/
def cexState4 : CState :=
  { owner := 1
    pricePerBlock := 2 ^ 63
    maxBlocks := 4
    lastFee := fun _ => defaultCt
    allowedThis := fun _ => false
    allowedUser := fun _ _ => false
    nextHid := 1
    events := [] }

theorem log2_96 : Nat.log 2 96 = 6 :=
  Nat.log_eq_of_pow_le_of_lt_pow (by norm_num) (by norm_num)

/- ### Claim theorems -/

/-- C1, counterexample to the claim as stated: with the admissible policy
`pricePerBlock = 2 ^ 63 > 0`, `maxBlocks = 2 > 0` (accepted by the
constructor) and plaintext `minutes = 60 > 0` within the claimed range
`minutes ≤ 30 * 2 ^ (⌊log₂ maxBlocks⌋ + 1) - 1 = 119`, a successful
`quote` stores an encrypted fee whose plaintext is `0`, not
`min(⌈60 / 30⌉, 2) * 2 ^ 63 = 2 ^ 64`: the 64-bit fee multiply wraps. -/
theorem C1_counterexample :
    construct 1 (2 ^ 63) 2 = .ok cexState ∧
    60 ≤ 30 * 2 ^ (Nat.log 2 cexState.maxBlocks + 1) - 1 ∧
    ((stepOp cexState (Op.quoteOp 5 60 [1])).lastFee 5).hid = 1 ∧
    ((stepOp cexState (Op.quoteOp 5 60 [1])).lastFee 5).val = 0 ∧
    min (ceilDiv 60 30) cexState.maxBlocks * cexState.pricePerBlock = 2 ^ 64 := by
  have hlog : Nat.log 2 2 = 1 := by simpa using Nat.log_pow (b := 2) (by norm_num) 1
  have hb2 : quoteBlocks 2 60 = 2 := by
    rw [quoteBlocks_eq 2 60 (by norm_num) (by norm_num) (by rw [W_eq]; norm_num),
      hlog, ceilDiv]
    norm_num
  have hf : quoteFee 2 (2 ^ 63) 60 = 0 := by
    rw [quoteFee, hb2, fheMul, W_eq]
    norm_num
  refine ⟨rfl, ?_, ?_, ?_, ?_⟩
  · show 60 ≤ 30 * 2 ^ (Nat.log 2 2 + 1) - 1
    rw [hlog]
    norm_num
  · rw [stepOp_quote, if_pos (by norm_num)]
    simp [cexState]
  · rw [stepOp_quote, if_pos (by norm_num)]
    simp only [cexState, if_pos rfl]
    simpa using hf
  · show min (ceilDiv 60 30) 2 * 2 ^ 63 = 2 ^ 64
    rw [ceilDiv]
    norm_num

/-- C1 (amended: the additional hypothesis
`maxBlocks * pricePerBlock < 2 ^ 64` excludes the fee-multiply overflow
exhibited by the counterexample).  For every state whose policy satisfies
`1 ≤ maxBlocks < 2 ^ 16`, `1 ≤ pricePerBlock`,
`maxBlocks * pricePerBlock < 2 ^ 64`, every plaintext
`1 ≤ minutes ≤ 30 * 2 ^ (⌊log₂ maxBlocks⌋ + 1) - 1` and every non-empty
proof, the block count before the cap step equals `⌈minutes / 30⌉`, and
`quote` succeeds and stores an encrypted fee whose plaintext is
`min(⌈minutes / 30⌉, maxBlocks) * pricePerBlock`. -/
theorem C1_pipeline_correct (s : CState) (sender m : Nat) (pf : List Nat)
    (hmb1 : 1 ≤ s.maxBlocks) (hmb16 : s.maxBlocks < 2 ^ 16)
    (hp1 : 1 ≤ s.pricePerBlock)
    (hov : s.maxBlocks * s.pricePerBlock < W)
    (hm1 : 1 ≤ m)
    (hm : m ≤ 30 * 2 ^ (Nat.log 2 s.maxBlocks + 1) - 1)
    (hpf : pf ≠ []) :
    quotePreCapBlocks s.maxBlocks m = ceilDiv m 30 ∧
    ∃ s' hdl, quote sender m pf s = .ok (s', hdl) ∧
      (s'.lastFee sender).val =
        min (ceilDiv m 30) s.maxBlocks * s.pricePerBlock := by
  have hK1 : (1 : Nat) ≤ 2 ^ (Nat.log 2 s.maxBlocks + 1) := Nat.one_le_two_pow
  have hKle : (2 : Nat) ^ (Nat.log 2 s.maxBlocks + 1) ≤ 2 ^ 16 :=
    Nat.pow_le_pow_right (by norm_num) (by have := log2_le_15 hmb1 hmb16; omega)
  have h16' : (2 : Nat) ^ 16 = 65536 := by norm_num
  have hmW : m < W := by rw [W_eq]; omega
  have hmlt : m < 30 * 2 ^ (Nat.log 2 s.maxBlocks + 1) := by omega
  have hpre : quotePreCapBlocks s.maxBlocks m = ceilDiv m 30 := by
    rw [quotePreCapBlocks_eq _ _ hmb1 hmb16 hmW, ceilDiv]
    omega
  have hblocks : quoteBlocks s.maxBlocks m = min (ceilDiv m 30) s.maxBlocks := by
    rw [quoteBlocks_eq _ _ hmb1 hmb16 hmW, ceilDiv]
    omega
  have hfee : quoteFee s.maxBlocks s.pricePerBlock m =
      min (ceilDiv m 30) s.maxBlocks * s.pricePerBlock := by
    have hle : min (ceilDiv m 30) s.maxBlocks * s.pricePerBlock ≤
        s.maxBlocks * s.pricePerBlock :=
      Nat.mul_le_mul_right _ (Nat.min_le_right _ _)
    rw [quoteFee, hblocks, fheMul, Nat.mod_eq_of_lt (by omega)]
  have hlen : 0 < pf.length := List.length_pos.mpr hpf
  refine ⟨hpre,
    { s with
        lastFee := fun x =>
          if x = sender then ⟨quoteFee s.maxBlocks s.pricePerBlock m, s.nextHid⟩
          else s.lastFee x
        allowedThis := fun h => if h = s.nextHid then true else s.allowedThis h
        allowedUser := fun h x =>
          if h = s.nextHid ∧ x = sender then true else s.allowedUser h x
        nextHid := s.nextHid + 1
        events := (sender, s.nextHid) :: s.events }, s.nextHid, ?_, ?_⟩
  · rw [quote, if_neg (by omega)]
    rfl
  · simpa using hfee

/-- C1 witness: the amended pipeline theorem applied at the spec's demo
policy (`pricePerBlock = 50`, `maxBlocks = 96`), `minutes = 31`. -/
theorem C1_pipeline_correct_witness :
    quotePreCapBlocks 96 31 = ceilDiv 31 30 ∧
    ∃ s' hdl, quote 7 31 [1] demoState = .ok (s', hdl) ∧
      (s'.lastFee 7).val = min (ceilDiv 31 30) 96 * 50 :=
  C1_pipeline_correct demoState 7 31 [1] (by norm_num [demoState])
    (by norm_num [demoState]) (by norm_num [demoState])
    (by rw [W_eq]; norm_num [demoState])
    (by norm_num)
    (by show 31 ≤ 30 * 2 ^ (Nat.log 2 96 + 1) - 1; rw [log2_96]; norm_num)
    (by simp)

/-- C2: cap enforcement with no upper bound on the (64-bit) input: for
every policy `1 ≤ maxBlocks < 2 ^ 16` and every plaintext
`minutes > 30 * maxBlocks` (up to the `euint64` range, including inputs
past the ladder's representable range), the post-cap block count equals
exactly `maxBlocks`. -/
theorem C2_cap_exact (maxB m : Nat) (h1 : 1 ≤ maxB) (h16 : maxB < 2 ^ 16)
    (hm : m < W) (hbig : 30 * maxB < m) :
    quoteBlocks maxB m = maxB := by
  have hK : maxB < 2 ^ (Nat.log 2 maxB + 1) := by
    simpa using Nat.lt_pow_succ_log_self (by norm_num) maxB
  rw [quoteBlocks_eq maxB m h1 h16 hm, ceilDiv]
  omega

/-- C2 witness: the cap theorem at the spec's demo policy and
`minutes = 5000 > 2880 = 30 * 96`. -/
theorem C2_cap_exact_witness : quoteBlocks 96 5000 = 96 :=
  C2_cap_exact 96 5000 (by norm_num) (by norm_num) (by rw [W_eq]; norm_num)
    (by norm_num)

/-- C3, counterexample to the claim as stated: `pricePerBlock = 2 ^ 63` is
an admissible configuration (the constructor accepts it), and with
`maxBlocks = 4`, `minutes = 120` the reachable post-cap block count is
`4 ≤ maxBlocks`, yet `blocks * pricePerBlock = 2 ^ 65 ≥ 2 ^ 64`: the
product is NOT below `2 ^ 64`, and the 64-bit multiply returns `0`
instead of the exact product. -/
theorem C3_counterexample :
    construct 1 (2 ^ 63) 4 = .ok cexState4 ∧
    quoteBlocks 4 120 = 4 ∧
    W ≤ quoteBlocks 4 120 * 2 ^ 63 ∧
    quoteFee 4 (2 ^ 63) 120 = 0 := by
  have hlog : Nat.log 2 4 = 2 := by
    have := Nat.log_pow (b := 2) (by norm_num) 2
    norm_num at this
    exact this
  have hb : quoteBlocks 4 120 = 4 := by
    rw [quoteBlocks_eq 4 120 (by norm_num) (by norm_num) (by rw [W_eq]; norm_num),
      hlog, ceilDiv]
    norm_num
  refine ⟨rfl, hb, ?_, ?_⟩
  · rw [hb, W_eq]
    norm_num
  · rw [quoteFee, hb, fheMul, W_eq]
    norm_num

/-- C3 (amended: under the additional hypothesis
`maxBlocks * pricePerBlock < 2 ^ 64`, which the counterexample shows is
not guaranteed by the code for arbitrary configured prices): every
reachable post-cap block count is at most `maxBlocks`, and the 64-bit fee
multiply is then exact and bounded by `maxBlocks * pricePerBlock`. -/
theorem C3_no_overflow (maxB price m : Nat) (h1 : 1 ≤ maxB)
    (h16 : maxB < 2 ^ 16) (hm : m < W) (hov : maxB * price < W) :
    quoteBlocks maxB m ≤ maxB ∧
    quoteFee maxB price m = quoteBlocks maxB m * price ∧
    quoteFee maxB price m ≤ maxB * price := by
  have hble : quoteBlocks maxB m ≤ maxB := by
    rw [quoteBlocks_eq maxB m h1 h16 hm]
    omega
  have hle : quoteBlocks maxB m * price ≤ maxB * price :=
    Nat.mul_le_mul_right _ hble
  refine ⟨hble, ?_, ?_⟩
  · rw [quoteFee, fheMul, Nat.mod_eq_of_lt (by omega)]
  · rw [quoteFee, fheMul, Nat.mod_eq_of_lt (by omega)]
    exact hle

/-- C3 witness: the no-overflow theorem at the demo policy
(`96 * 50 = 4800 < 2 ^ 64`), `minutes = 5000`. -/
theorem C3_no_overflow_witness :
    quoteBlocks 96 5000 ≤ 96 ∧
    quoteFee 96 50 5000 = quoteBlocks 96 5000 * 50 ∧
    quoteFee 96 50 5000 ≤ 96 * 50 :=
  C3_no_overflow 96 50 5000 (by norm_num) (by norm_num)
    (by rw [W_eq]; norm_num) (by rw [W_eq]; norm_num)

/-- C4: monotonicity of the post-cap block count in the plaintext minutes,
for a fixed policy, over the full `euint64` input range. -/
theorem C4_blocks_monotone (maxB m1 m2 : Nat) (h1 : 1 ≤ maxB)
    (h16 : maxB < 2 ^ 16) (hlt : m1 < m2) (hm2 : m2 < W) :
    quoteBlocks maxB m1 ≤ quoteBlocks maxB m2 := by
  rw [quoteBlocks_eq maxB m1 h1 h16 (by omega),
    quoteBlocks_eq maxB m2 h1 h16 hm2, ceilDiv, ceilDiv]
  have hdiv : (m1 + 29) / 30 ≤ (m2 + 29) / 30 := Nat.div_le_div_right (by omega)
  omega

/-- C4 witness: monotonicity at the demo policy, `31 < 5000`. -/
theorem C4_blocks_monotone_witness : quoteBlocks 96 31 ≤ quoteBlocks 96 5000 :=
  C4_blocks_monotone 96 31 5000 (by norm_num) (by norm_num) (by norm_num)
    (by rw [W_eq]; norm_num)

/-- C5: for every `maxBlocks ≥ 1`, `_msbPos maxBlocks` is
`⌊log₂ maxBlocks⌋`; the subtraction ladder of `quote` executes exactly
`_msbPos maxBlocks + 1` iterations whatever the encrypted minutes and
accumulator are (the iteration count depends only on the public
`maxBlocks`); the iteration list ends in the ladder's final state; and
for `maxBlocks ≤ 65535` the count is at most 16. -/
theorem C5_fixed_iterations (maxB : Nat) (h1 : 1 ≤ maxB) :
    _msbPos maxB = Nat.log 2 maxB ∧
    (∀ m blocks : Nat,
      (ladderTrace m blocks (_msbPos maxB)).length = _msbPos maxB + 1) ∧
    (∀ m blocks : Nat,
      (ladderTrace m blocks (_msbPos maxB)).getLast? =
        some (ladderDown m blocks (_msbPos maxB))) ∧
    (maxB ≤ 65535 → _msbPos maxB + 1 ≤ 16) := by
  refine ⟨_msbPos_eq_log maxB, fun m blocks => ladderTrace_length _ m blocks,
    fun m blocks => ladderTrace_getLast _ m blocks, fun h65 => ?_⟩
  rw [_msbPos_eq_log]
  have h16 : maxB < 2 ^ 16 := by
    have : (2 : Nat) ^ 16 = 65536 := by norm_num
    omega
  have := log2_le_15 h1 h16
  omega

/-- C5 witness: the iteration-count theorem at `maxBlocks = 96`. -/
theorem C5_fixed_iterations_witness :
    _msbPos 96 = Nat.log 2 96 ∧
    (∀ m blocks : Nat,
      (ladderTrace m blocks (_msbPos 96)).length = _msbPos 96 + 1) ∧
    (∀ m blocks : Nat,
      (ladderTrace m blocks (_msbPos 96)).getLast? =
        some (ladderDown m blocks (_msbPos 96))) ∧
    (96 ≤ 65535 → _msbPos 96 + 1 ≤ 16) :=
  C5_fixed_iterations 96 (by norm_num)

/-- C6: authorization with atomicity: a call to `setPricePerBlock`,
`setMaxBlocks` or `transferOwnership` from an identity other than the
current authority fails with `NotAuthorizedError` (`require(msg.sender ==
owner, "Not owner")`), and the revert leaves the whole state — in
particular `pricePerBlock`, `maxBlocks` and the authority — unchanged. -/
theorem C6_only_owner (s : CState) (sender p mb n : Nat)
    (hns : sender ≠ s.owner) :
    setPricePerBlock sender p s = .error .NotAuthorizedError ∧
    setMaxBlocks sender mb s = .error .NotAuthorizedError ∧
    transferOwnership sender n s = .error .NotAuthorizedError ∧
    stepOp s (.setPrice sender p) = s ∧
    stepOp s (.setMax sender mb) = s ∧
    stepOp s (.transfer sender n) = s := by
  refine ⟨?_, ?_, ?_, ?_, ?_, ?_⟩
  · rw [setPricePerBlock, if_pos hns]
  · rw [setMaxBlocks, if_pos hns]
  · rw [transferOwnership, if_pos hns]
  · rw [stepOp_setPrice, if_neg (by simp [hns])]
  · rw [stepOp_setMax, if_neg (by simp [hns])]
  · rw [stepOp_transfer, if_neg (by simp [hns])]

/-- C6 witness: non-owner `2` against the demo state (owner `1`). -/
theorem C6_only_owner_witness :
    setPricePerBlock 2 60 demoState = .error .NotAuthorizedError ∧
    setMaxBlocks 2 10 demoState = .error .NotAuthorizedError ∧
    transferOwnership 2 3 demoState = .error .NotAuthorizedError ∧
    stepOp demoState (.setPrice 2 60) = demoState ∧
    stepOp demoState (.setMax 2 10) = demoState ∧
    stepOp demoState (.transfer 2 3) = demoState :=
  C6_only_owner demoState 2 60 10 3 (by norm_num [demoState])

/-- C7: the pricing-config invariant: construction rejects a zero price
or cap with `InvalidPolicyError`; the setters reject a zero argument and
`transferOwnership` rejects the zero identity with `InvalidPolicyError`,
each leaving the state unchanged; `quote` and `transferOwnership` never
change `pricePerBlock` or `maxBlocks`, `setPricePerBlock` never changes
`maxBlocks` and `setMaxBlocks` never changes `pricePerBlock`; and in
every state reachable from a successful construction both
`pricePerBlock` and `maxBlocks` are positive. -/
theorem C7_policy_invariant :
    (∀ d p mb, p = 0 ∨ mb = 0 → construct d p mb = .error .InvalidPolicyError) ∧
    (∀ (s : CState) sender, sender = s.owner →
      setPricePerBlock sender 0 s = .error .InvalidPolicyError ∧
      stepOp s (.setPrice sender 0) = s) ∧
    (∀ (s : CState) sender, sender = s.owner →
      setMaxBlocks sender 0 s = .error .InvalidPolicyError ∧
      stepOp s (.setMax sender 0) = s) ∧
    (∀ (s : CState) sender, sender = s.owner →
      transferOwnership sender 0 s = .error .InvalidPolicyError ∧
      stepOp s (.transfer sender 0) = s) ∧
    (∀ (s : CState) a m pf,
      (stepOp s (.quoteOp a m pf)).pricePerBlock = s.pricePerBlock ∧
      (stepOp s (.quoteOp a m pf)).maxBlocks = s.maxBlocks) ∧
    (∀ (s : CState) a n,
      (stepOp s (.transfer a n)).pricePerBlock = s.pricePerBlock ∧
      (stepOp s (.transfer a n)).maxBlocks = s.maxBlocks) ∧
    (∀ (s : CState) a p, (stepOp s (.setPrice a p)).maxBlocks = s.maxBlocks) ∧
    (∀ (s : CState) a mb,
      (stepOp s (.setMax a mb)).pricePerBlock = s.pricePerBlock) ∧
    (∀ d p mb (s0 : CState) (ops : List Op), construct d p mb = .ok s0 →
      0 < (run s0 ops).pricePerBlock ∧ 0 < (run s0 ops).maxBlocks) := by
  refine ⟨?_, ?_, ?_, ?_, ?_, ?_, ?_, ?_, ?_⟩
  · intro d p mb h
    rcases h with h | h
    · subst h
      rw [construct, if_pos (by omega)]
    · subst h
      by_cases hp : 0 < p
      · rw [construct, if_neg (by omega), if_pos (by omega)]
      · rw [construct, if_pos (by omega)]
  · intro s sender hs
    exact ⟨by rw [setPricePerBlock, if_neg (by simp [hs]), if_pos (by omega)],
      by rw [stepOp_setPrice, if_neg (by omega)]⟩
  · intro s sender hs
    exact ⟨by rw [setMaxBlocks, if_neg (by simp [hs]), if_pos (by omega)],
      by rw [stepOp_setMax, if_neg (by omega)]⟩
  · intro s sender hs
    exact ⟨by rw [transferOwnership, if_neg (by simp [hs]), if_pos (by omega)],
      by rw [stepOp_transfer, if_neg (by omega)]⟩
  · intro s a m pf
    rw [stepOp_quote]
    split <;> exact ⟨rfl, rfl⟩
  · intro s a n
    rw [stepOp_transfer]
    split <;> exact ⟨rfl, rfl⟩
  · intro s a p
    rw [stepOp_setPrice]
    split <;> rfl
  · intro s a mb
    rw [stepOp_setMax]
    split <;> rfl
  · intro d p mb s0 ops hc
    obtain ⟨-, hp, hmb, -, -, hp0, hmb0⟩ := construct_ok hc
    exact run_pos ops s0 (by omega) (by omega)

/-- C7 witness: the reachable-state invariant instantiated on a concrete
deployment and trace (deploy with price 50 and cap 96, then one price
update and one quote). -/
theorem C7_policy_invariant_witness :
    0 < (run demoState [Op.setPrice 1 60, Op.quoteOp 7 31 [1]]).pricePerBlock ∧
    0 < (run demoState [Op.setPrice 1 60, Op.quoteOp 7 31 [1]]).maxBlocks :=
  C7_policy_invariant.2.2.2.2.2.2.2.2 1 50 96 demoState
    [Op.setPrice 1 60, Op.quoteOp 7 31 [1]] rfl

/-- C8: a `quote` call with an empty proof fails with
`InvalidProofError` (`require(proof.length > 0, "Empty proof")`) and the
revert leaves the state unchanged: no result record is stored, no access
grant is made, no event is emitted. -/
theorem C8_empty_proof (s : CState) (a m : Nat) (pf : List Nat)
    (hpf : pf.length = 0) :
    quote a m pf s = .error .InvalidProofError ∧
    stepOp s (.quoteOp a m pf) = s ∧
    (stepOp s (.quoteOp a m pf)).lastFee = s.lastFee ∧
    (stepOp s (.quoteOp a m pf)).allowedThis = s.allowedThis ∧
    (stepOp s (.quoteOp a m pf)).allowedUser = s.allowedUser ∧
    (stepOp s (.quoteOp a m pf)).events = s.events := by
  have hstep : stepOp s (.quoteOp a m pf) = s := by
    rw [stepOp_quote, if_neg (by omega)]
  exact ⟨by rw [quote, if_pos (by omega)], hstep, by rw [hstep], by rw [hstep],
    by rw [hstep], by rw [hstep]⟩

/-- C8 witness: an empty-proof quote against the demo state. -/
theorem C8_empty_proof_witness :
    quote 7 10 [] demoState = .error .InvalidProofError ∧
    stepOp demoState (.quoteOp 7 10 []) = demoState ∧
    (stepOp demoState (.quoteOp 7 10 [])).lastFee = demoState.lastFee ∧
    (stepOp demoState (.quoteOp 7 10 [])).allowedThis = demoState.allowedThis ∧
    (stepOp demoState (.quoteOp 7 10 [])).allowedUser = demoState.allowedUser ∧
    (stepOp demoState (.quoteOp 7 10 [])).events = demoState.events :=
  C8_empty_proof demoState 7 10 [] rfl

/-- C9: result isolation and frame: in any handle-well-formed state
(which every reachable state is — last conjunct), a successful `quote` by
`a` leaves every other identity `b`'s stored record unchanged,
`getMyFeeHandle` returns `a`'s freshly produced handle to `a`, and `b`'s
`getMyFeeHandle` never returns the handle produced for `a`. -/
theorem C9_result_isolation (s : CState) (a b m : Nat) (pf : List Nat)
    (hwf : WfHandles s) (hpf : pf ≠ []) (hba : b ≠ a) :
    (∃ s' hdl, quote a m pf s = .ok (s', hdl) ∧
      s'.lastFee b = s.lastFee b ∧
      getMyFeeHandle a s' = hdl ∧
      getMyFeeHandle b s' ≠ hdl) ∧
    (∀ d p mb (s0 : CState) (ops : List Op), construct d p mb = .ok s0 →
      WfHandles (run s0 ops)) := by
  have hlen : 0 < pf.length := List.length_pos.mpr hpf
  constructor
  · refine ⟨{ s with
        lastFee := fun x =>
          if x = a then ⟨quoteFee s.maxBlocks s.pricePerBlock m, s.nextHid⟩
          else s.lastFee x
        allowedThis := fun h => if h = s.nextHid then true else s.allowedThis h
        allowedUser := fun h x =>
          if h = s.nextHid ∧ x = a then true else s.allowedUser h x
        nextHid := s.nextHid + 1
        events := (a, s.nextHid) :: s.events }, s.nextHid, ?_, ?_, ?_, ?_⟩
    · rw [quote, if_neg (by omega)]
      rfl
    · simp [hba]
    · simp [getMyFeeHandle, toBytes32]
    · simp only [getMyFeeHandle, toBytes32]
      have := hwf b
      simp only [if_neg hba]
      omega
  · intro d p mb s0 ops hc
    obtain ⟨-, -, -, hlf, hnh, -, -⟩ := construct_ok hc
    refine run_wf ops s0 ?_
    intro x
    rw [hlf x, hnh]
    norm_num [defaultCt]

/-- C9 witness: requester `7` quoting against the demo state, observer
`8`. -/
theorem C9_result_isolation_witness :
    (∃ s' hdl, quote 7 31 [2] demoState = .ok (s', hdl) ∧
      s'.lastFee 8 = demoState.lastFee 8 ∧
      getMyFeeHandle 7 s' = hdl ∧
      getMyFeeHandle 8 s' ≠ hdl) ∧
    (∀ d p mb (s0 : CState) (ops : List Op), construct d p mb = .ok s0 →
      WfHandles (run s0 ops)) :=
  C9_result_isolation demoState 7 8 31 [2] (fun _ => Nat.one_pos)
    (by simp) (by norm_num)

/-- C10: an identity `b` that has never successfully completed `quote`
(every quote transaction by `b` in the trace carried an empty proof, so
each reverted) still has the default ciphertext in its slot, and
`getMyFeeHandle` does not fail: it returns the all-zero handle `0`. -/
theorem C10_default_handle (d p mb b : Nat) (s0 : CState) (ops : List Op)
    (hc : construct d p mb = .ok s0)
    (hb : ∀ m pf, Op.quoteOp b m pf ∈ ops → pf = []) :
    (run s0 ops).lastFee b = defaultCt ∧
    getMyFeeHandle b (run s0 ops) = 0 := by
  obtain ⟨-, -, -, hlf, -, -, -⟩ := construct_ok hc
  have h1 : (run s0 ops).lastFee b = s0.lastFee b := run_lastFee_frame b ops s0 hb
  exact ⟨by rw [h1, hlf b], by rw [getMyFeeHandle, h1, hlf b]; rfl⟩

/-- C10 witness: identity `5` never quotes in a trace containing a price
update and a quote by `7`; its handle reads back as `0`. -/
theorem C10_default_handle_witness :
    (run demoState [Op.setPrice 1 60, Op.quoteOp 7 31 [1]]).lastFee 5 =
      defaultCt ∧
    getMyFeeHandle 5 (run demoState [Op.setPrice 1 60, Op.quoteOp 7 31 [1]]) =
      0 :=
  C10_default_handle 1 50 96 5 demoState [Op.setPrice 1 60, Op.quoteOp 7 31 [1]]
    rfl (by intro m pf h; simp at h)

end Parking
